import Mathlib

/-!
Verification development for the `puppetfile` Rust library
(`src/lib.rs` of Mayflower/rust-puppetfile).

Rust strings are modelled as `List Char` (`Str`).  The data model
(`Puppetfile`, `Module`, `ModuleInfo`, `PuppetfileError`, `ErrorKind`),
the renderer (the `fmt::Show` implementations), the query helpers
(`user_name_pair`, `version`) and `version_url` are translated from
`src/lib.rs`.  The parser lives in the `puppetfile_parser` module, which
is not part of `src/lib.rs`; it is modelled from the specification
(grammar in spec section 4.1) and exposed with the exact public
signature declared in `src/lib.rs` (`parse : &str -> Result<Puppetfile,
String>`).
-/

namespace Puppet

/-- Rust strings are modelled as lists of characters. -/
abbrev Str : Type := List Char

/-- Turn a Lean string literal into the `List Char` model of Rust strings. -/
def strL (s : String) : Str := s.toList

/-- Whitespace characters (space, tab, carriage return, newline). -/
def isWsChar (c : Char) : Bool :=
  c = ' ' ∨ c = '\t' ∨ c = '\r' ∨ c = '\n'

/-- Model of Rust `str::split(c)`: split a string at every occurrence of
`c`; always returns at least one (possibly empty) part. -/
def splitOnChar (c : Char) : Str → List Str
  | [] => [[]]
  | x :: xs =>
    match splitOnChar c xs with
    | [] => [[x]]
    | h :: t => if x = c then [] :: h :: t else (x :: h) :: t

/-- Modelled from the spec: the version-requirement type of the external
`semver` crate; a `VersionReq` carries its canonical textual form
(spec 3: "a semantic-version range expression") and its `Display`
implementation prints that form. -/
structure VersionReq where
  str : Str
deriving DecidableEq, Repr

/-- Modelled from the spec: the characters allowed in a semantic-version
range expression, which is built from version numbers and comparison
operators (spec 3, e.g. `">= 1.2.0"`, `"1.2.3"`). -/
def isReqChar (c : Char) : Bool :=
  c.isAlphanum ∨ c = '.' ∨ c = ' ' ∨ c = '<' ∨ c = '>' ∨ c = '=' ∨
    c = '~' ∨ c = '^' ∨ c = '*' ∨ c = ',' ∨ c = '-' ∨ c = '+' ∨ c = '|'

/-- Modelled from the spec: the external `semver::VersionReq::parse`,
used by the parser to decide whether a bare quoted literal is a valid
version-constraint expression (spec 4.1, disambiguation rule). -/
def validVersionReq (s : Str) : Bool :=
  s ≠ [] ∧ s.all isReqChar

/-- Further information on puppet modules (`enum ModuleInfo`). -/
inductive ModuleInfo : Type where
  /-- Version as String -/
  | Version (v : VersionReq)
  /-- Key Value based Information -/
  | Info (k v : Str)
deriving DecidableEq, Repr

/-- Returns `true` if the option is a `Version` value (`ModuleInfo::is_version`). -/
def ModuleInfo.is_version : ModuleInfo → Bool
  | .Version _ => true
  | .Info _ _ => false

/-- The representation of a puppet module (`struct Module`). -/
structure Module where
  /-- Name of the module -/
  name : Str
  /-- More information about the module -/
  info : List ModuleInfo
deriving DecidableEq, Repr

/-- This represents a Puppetfile (`struct Puppetfile`). -/
structure Puppetfile where
  /-- The forge URL -/
  forge : Str
  /-- All Modules contained in the Puppetfile -/
  modules : List Module
deriving DecidableEq, Repr

/-- Type of error of a `PuppetfileError` (`enum ErrorKind`).  The
payloads of the first four variants are external error values
(`hyper::HttpError`, `io::IoError`, `semver::ParseError`,
`json::DecoderError`); they are modelled as strings. -/
inductive ErrorKind : Type where
  /-- an HTTP error -/
  | HttpError (e : Str)
  /-- an IO error -/
  | IoError (e : Str)
  /-- an error while parsing the version -/
  | SemverError (e : Str)
  /-- an error while parsing JSON -/
  | JsonError (e : Str)
  /-- an error while building the forge URL -/
  | UrlBuilding
deriving DecidableEq, Repr

/-- An error while checking the version published on the forge
(`struct PuppetfileError`). -/
structure PuppetfileError where
  /-- type of the error -/
  kind : ErrorKind
  /-- short description -/
  desc : Str
  /-- optional, more detailed description -/
  detail : Option Str
deriving DecidableEq, Repr

/-- Returns user and module name from `'user/mod_name'`
(`Module::user_name_pair`).  The Rust code guards on
`name.contains("/")`, then calls `split('/')` and unwraps the first two
items of the iterator; the final wildcard arm models the (unreachable)
case in which an unwrap would panic. -/
def Module.user_name_pair (m : Module) : Option (Str × Str) :=
  if m.name.contains '/' then
    match splitOnChar '/' m.name with
    | u :: n :: _ => some (u, n)
    | _ => none
  else
    none

/-- Returns the version if specified (`Module::version`): the constraint
of the first `Version` entry of `info`. -/
def firstVersion : List ModuleInfo → Option VersionReq
  | [] => none
  | .Version v :: _ => some v
  | .Info _ _ :: rest => firstVersion rest

/-- Returns the version if specified (`Module::version`). -/
def Module.version (m : Module) : Option VersionReq :=
  firstVersion m.info

/-- The trailing-slash stripping performed at the start of
`Module::version_url`: `forge_url[..len - 1]` when the URL ends with
`"/"`, the URL itself otherwise. -/
def stripTrailingSlash (url : Str) : Str :=
  if url.getLast? = some '/' then url.dropLast else url

/-- Builds the URL for the forge API for fetching the version
(`Module::version_url`). -/
def Module.version_url (m : Module) (forge_url : Str) : Except PuppetfileError Str :=
  let stripped_url := stripTrailingSlash forge_url
  match m.user_name_pair with
  | some (user, mod_name) =>
    .ok (stripped_url ++ strL "/users/" ++ user ++ strL "/modules/" ++
      mod_name ++ strL "/releases/find.json")
  | none => .error ⟨.UrlBuilding, strL "Could not build url", none⟩

/-- Rendering of one `ModuleInfo` (`impl fmt::Show for ModuleInfo`):
a `Version` prints via the `Display` of `VersionReq`; an `Info` pair
prints as `:key => 'value'`. -/
def showModuleInfo : ModuleInfo → Str
  | .Version v => v.str
  | .Info k v => ':' :: (k ++ strL " => '" ++ v ++ strL "'")

/-- The text appended after `mod '<name>'` by the info fold of
`impl fmt::Show for Module`: `", '{}'"` for each `Version` item and
`",\n  {}"` for each `Info` item, in order. -/
def infoItemsText : List ModuleInfo → Str
  | [] => []
  | i@(.Version _) :: rest => strL ", '" ++ showModuleInfo i ++ strL "'" ++ infoItemsText rest
  | i@(.Info _ _) :: rest => strL ",\n  " ++ showModuleInfo i ++ infoItemsText rest

/-- Rendering of one `Module` (`impl fmt::Show for Module`). -/
def showModule (m : Module) : Str :=
  strL "mod '" ++ m.name ++ strL "'" ++ infoItemsText m.info

/-- The text appended after the forge line by the module fold of
`impl fmt::Show for Puppetfile`: `"\n{}\n"` for each module. -/
def modulesText : List Module → Str
  | [] => []
  | m :: ms => '\n' :: (showModule m ++ '\n' :: modulesText ms)

/-- Rendering of a whole `Puppetfile` (`impl fmt::Show for Puppetfile`):
`forge '<url>'`, a blank line, then `"\n{}\n"` per module. -/
def showPuppetfile (p : Puppetfile) : Str :=
  strL "forge '" ++ p.forge ++ strL "'\n\n" ++ modulesText p.modules

/-!
The parser.  The Rust crate keeps it in the `puppetfile_parser` module,
which is not part of `src/lib.rs`; everything below is modelled from the
spec (section 4.1): a line-oriented grammar whose statements are
separated by line breaks, with blank lines and leading/trailing
whitespace ignored, statement continuation across physical lines via a
trailing comma, `forge '<url>'` statements (last occurrence wins),
`mod '<name>'` statements with comma-separated info items (a quoted
version-constraint literal, validated fail-fast, or a `:key => 'value'`
pair with a symbol-like key), and fail-fast errors (`SyntaxError`,
`MissingForge`, `InvalidVersionConstraint`) converted to plain strings
at the public boundary, since `src/lib.rs` declares
`parse : &str -> Result<Puppetfile, String>`.
-/

/-- Modelled from the spec: leading and trailing whitespace on a line is
ignored (spec 4.1, rule 1). -/
def trimStr (s : Str) : Str :=
  ((s.dropWhile isWsChar).reverse.dropWhile isWsChar).reverse

/-- Modelled from the spec: free-form whitespace between tokens
(spec 4.1). -/
def skipWs (s : Str) : Str := s.dropWhile isWsChar

/-- Modelled from the spec: info items may span multiple physical lines,
continuation being permitted via a trailing comma (spec 4.1, rule 3);
a (trimmed) line ending in `,` is joined with the following line. -/
def mergeCont : List Str → List Str
  | [] => []
  | l :: ls =>
    if l.getLast? = some ',' then
      match mergeCont ls with
      | [] => [l]
      | h :: t => (l ++ ' ' :: h) :: t
    else
      l :: mergeCont ls

/-- Modelled from the spec: a single-quoted string literal (spec 4.1,
rules 2 and 3).  Returns the literal's content and the rest of the
input, or `none` on a missing opening or closing quote. -/
def parseQuoted : Str → Option (Str × Str)
  | '\'' :: tl =>
    match tl.dropWhile (fun c => c ≠ '\'') with
    | '\'' :: r => some (tl.takeWhile (fun c => c ≠ '\''), r)
    | _ => none
  | _ => none

/-- Modelled from the spec: the comma-separated list of info items of a
module statement (spec 4.1, rule 3); commas inside single-quoted
literals do not separate items.  The boolean argument tracks whether the
scan is currently inside a quoted literal. -/
def splitTC : Bool → Str → List Str
  | _, [] => [[]]
  | inq, c :: cs =>
    if inq = false ∧ c = ',' then
      [] :: splitTC inq cs
    else
      match splitTC (if c = '\'' then !inq else inq) cs with
      | [] => [[c]]
      | h :: t => (c :: h) :: t

/-- Modelled from the spec: the characters of an unquoted symbol-like
attribute key (spec 4.1, rule 3). -/
def isSymChar (c : Char) : Bool :=
  c.isAlphanum ∨ c = '_' ∨ c = '-'

/-- Modelled from the spec: the error taxonomy of the parser
(section 7): `SyntaxError` carries the offending text, `MissingForge`
reports a document without a forge statement,
`InvalidVersionConstraint` names the module and the offending
literal. -/
inductive ParseError : Type where
  /-- malformed statement; carries the offending text -/
  | SyntaxError (line : Str)
  /-- no forge statement found in a document that otherwise parsed -/
  | MissingForge
  /-- a bare literal in a module's info list failed to parse as a
  version range; names the module and the literal -/
  | InvalidVersionConstraint (modName lit : Str)
deriving DecidableEq, Repr

/-- Modelled from the spec: one parsed statement, a forge statement or a
module statement (section 4.1, rules 2 and 3). -/
inductive Stmt : Type where
  /-- a `forge '<url>'` statement -/
  | forgeS (url : Str)
  /-- a `mod '<name>', ...` statement -/
  | modS (m : Module)
deriving DecidableEq, Repr

/-- Modelled from the spec: one info item of a module statement, either
a bare quoted version-constraint literal (validated fail-fast, spec 4.1
disambiguation rule) or a `:key => 'value'` pair (spec 4.1, rule 3). -/
def parseItem1 (modName : Str) (s0 : Str) : Except ParseError ModuleInfo :=
  match skipWs s0 with
  | '\'' :: tl =>
    match parseQuoted ('\'' :: tl) with
    | some (c, r) =>
      if skipWs r = [] then
        if validVersionReq c then .ok (.Version ⟨c⟩)
        else .error (.InvalidVersionConstraint modName c)
      else .error (.SyntaxError s0)
    | none => .error (.SyntaxError s0)
  | ':' :: tl =>
    if tl.takeWhile isSymChar = [] then .error (.SyntaxError s0)
    else
      match skipWs (tl.dropWhile isSymChar) with
      | '=' :: '>' :: r2 =>
        match parseQuoted (skipWs r2) with
        | some (v, r3) =>
          if skipWs r3 = [] then .ok (.Info (tl.takeWhile isSymChar) v)
          else .error (.SyntaxError s0)
        | none => .error (.SyntaxError s0)
      | _ => .error (.SyntaxError s0)
  | _ => .error (.SyntaxError s0)

/-- Modelled from the spec: a fail-fast effectful map over a list, where
the first error aborts the whole traversal (spec 7: the parser fails
fast on the first structural error). -/
def mapME (f : α → Except ε β) : List α → Except ε (List β)
  | [] => .ok []
  | x :: xs =>
    match f x with
    | .error e => .error e
    | .ok y => (mapME f xs).map (fun ys => y :: ys)

/-- Modelled from the spec: one logical statement (spec 4.1, rules 2 to
4): a `forge` statement with a quoted URL, or a `mod` statement with a
quoted name and optional comma-separated info items; any other nonblank
line is a syntax error. -/
def parseStmt (s : Str) : Except ParseError Stmt :=
  match s with
  | 'f' :: 'o' :: 'r' :: 'g' :: 'e' :: rest =>
    match parseQuoted (skipWs rest) with
    | some (u, r) =>
      if skipWs r = [] then .ok (.forgeS u) else .error (.SyntaxError s)
    | none => .error (.SyntaxError s)
  | 'm' :: 'o' :: 'd' :: rest =>
    match parseQuoted (skipWs rest) with
    | some (n, r) =>
      if skipWs r = [] then .ok (.modS ⟨n, []⟩)
      else
        match splitTC false (skipWs r) with
        | [] :: itemStrs =>
          (mapME (parseItem1 n) itemStrs).map (fun is => .modS ⟨n, is⟩)
        | _ => .error (.SyntaxError s)
    | none => .error (.SyntaxError s)
  | _ => .error (.SyntaxError s)

/-- Modelled from the spec: the logical statements of a manifest text:
physical lines, trimmed, comma-continuations joined, blank lines
dropped (spec 4.1, rules 1 and 3). -/
def logicalStmts (text : Str) : List Str :=
  (mergeCont ((splitOnChar '\n' text).map trimStr)).filter (fun l => l ≠ [])

/-- Modelled from the spec: the forge URL retained after a single pass
over the statements; a second forge statement overwrites the first
(spec 4.1, rule 2: last occurrence wins). -/
def lastForge : List Stmt → Option Str
  | [] => none
  | .forgeS u :: rest =>
    match lastForge rest with
    | some v => some v
    | none => some u
  | .modS _ :: rest => lastForge rest

/-- Modelled from the spec: the module statements, in declaration order
(spec 3: insertion order is declaration order in the source text). -/
def modsOf : List Stmt → List Module
  | [] => []
  | .forgeS _ :: rest => modsOf rest
  | .modS m :: rest => m :: modsOf rest

/-- Modelled from the spec: assemble the document from the parsed
statements; a document without a forge statement fails with
`MissingForge` (spec 7). -/
def buildDoc (stmts : List Stmt) : Except ParseError Puppetfile :=
  match lastForge stmts with
  | none => .error .MissingForge
  | some u => .ok ⟨u, modsOf stmts⟩

/-- Modelled from the spec: the parser `parse(text) -> Result<Document,
ParseError>` (spec 4.1): split into logical statements, parse each
fail-fast, then assemble the document. -/
def parseE (text : Str) : Except ParseError Puppetfile :=
  match mapME parseStmt (logicalStmts text) with
  | .error e => .error e
  | .ok stmts => buildDoc stmts

/-- Modelled from the spec: the message string a `ParseError` is
converted to at the public boundary (section 7: every error carries a
short description, with the offending text where applicable). -/
def renderParseError : ParseError → Str
  | .SyntaxError line => strL "syntax error in line: " ++ line
  | .MissingForge => strL "missing forge statement"
  | .InvalidVersionConstraint modName lit =>
    strL "invalid version constraint '" ++ lit ++ strL "' for module " ++ modName

/-- Decidable equality on `Except` results, used to evaluate the parser
on concrete inputs inside proofs. -/
instance exceptDecEq {ε α : Type} [DecidableEq ε] [DecidableEq α] :
    DecidableEq (Except ε α) := fun a b =>
  match a, b with
  | .error x, .error y =>
    if h : x = y then .isTrue (by rw [h]) else
      .isFalse (by intro hc; cases hc; exact h rfl)
  | .error _, .ok _ => .isFalse (by intro hc; cases hc)
  | .ok _, .error _ => .isFalse (by intro hc; cases hc)
  | .ok x, .ok y =>
    if h : x = y then .isTrue (by rw [h]) else
      .isFalse (by intro hc; cases hc; exact h rfl)

/-- Modelled from the spec: the body of `Puppetfile::parse` (try parsing
the contents of a Puppetfile into a Puppetfile struct), which delegates
to the missing `puppetfile_parser` module.  The signature is the one
declared in `src/lib.rs`: the error type is a plain string. -/
def Puppetfile.parse (contents : Str) : Except Str Puppetfile :=
  match parseE contents with
  | .ok doc => .ok doc
  | .error e => .error (renderParseError e)

/-- The URLs of the forge statements of a statement list, in order. -/
def forgeUrls : List Stmt → List Str
  | [] => []
  | .forgeS u :: rest => u :: forgeUrls rest
  | .modS _ :: rest => forgeUrls rest

/-- The last element of a list of URLs, if any. -/
def lastUrl : List Str → Option Str
  | [] => none
  | u :: rest =>
    match lastUrl rest with
    | some v => some v
    | none => some u

/-!
The physical-line structure of the renderer's output.
-/

/-- Join a list of lines with newline separators (no trailing newline). -/
def joinLines : List Str → Str
  | [] => []
  | [l] => l
  | l :: ls => l ++ '\n' :: joinLines ls

/-- The physical lines produced by rendering a module, `cur` being the
text accumulated so far on the current line: each `Version` item extends
the current line with `, '<constraint>'`; each `Info` item closes the
current line with a comma and starts a fresh two-space-indented
`:<key> => '<value>'` line. -/
def moduleLines (cur : Str) : List ModuleInfo → List Str
  | [] => [cur]
  | i@(.Version _) :: rest =>
    moduleLines (cur ++ strL ", '" ++ showModuleInfo i ++ strL "'") rest
  | i@(.Info _ _) :: rest =>
    (cur ++ [',']) :: moduleLines (strL "  " ++ showModuleInfo i) rest

/-- The first line of a rendered `Puppetfile`, `forge '<url>'`. -/
def forgeLine (p : Puppetfile) : Str :=
  strL "forge '" ++ p.forge ++ strL "'"

/-- The opening text of a rendered module line, `mod '<name>'`. -/
def modStart (m : Module) : Str :=
  strL "mod '" ++ m.name ++ strL "'"

/-- The physical lines of a rendered `Puppetfile`: the forge line, a
blank line, then for every module a blank line followed by the module's
lines, and a final blank line (the output ends with a newline). -/
def pfLines (p : Puppetfile) : List Str :=
  forgeLine p :: [] ::
    ((p.modules.map (fun m => [] :: moduleLines (modStart m) m.info)).flatten ++ [[]])

/-- Join module texts (each already ending in a newline) with one blank
line between consecutive modules. -/
def joinBlankSep : List Str → Str
  | [] => []
  | [x] => x
  | x :: xs => x ++ '\n' :: joinBlankSep xs

/-- Modelled from the claim's words (C8): the line `forge '<url>'`, one
blank line, then each module in sequence as a line `mod '<name>'` with
its items (inline `, '<constraint>'` pieces and comma + newline +
indented `:<key> => '<value>'` continuation lines, exactly as the code's
module renderer produces them), with a blank line between modules. -/
def specRenderLayout (p : Puppetfile) : Str :=
  strL "forge '" ++ p.forge ++ strL "'" ++ ['\n'] ++ ['\n'] ++
    joinBlankSep (p.modules.map (fun m => showModule m ++ ['\n']))

/-!
Definitions used for the round-trip property: the invariant enjoyed by
every document a successful parse produces, and the canonical one-line
statement each rendered module collapses back to after trimming and
continuation-merging.
-/

/-- Strings that occur in single-quoted position of a rendered document
(forge URL, module name, attribute value): no quote and no newline. -/
def okStr (s : Str) : Bool := s.all (fun c => c ≠ '\'' ∧ c ≠ '\n')

/-- Attribute keys: a nonempty symbol-like token. -/
def okKey (s : Str) : Bool := s ≠ [] ∧ s.all isSymChar

/-- Well-formedness of one info item: a valid constraint string, or a
symbol-like key with a quote-free value. -/
def WFinfo : ModuleInfo → Bool
  | .Version v => validVersionReq v.str
  | .Info k v => okKey k ∧ okStr v

/-- Well-formedness of one module. -/
def WFmod (m : Module) : Bool := okStr m.name ∧ m.info.all WFinfo

/-- Well-formedness of a document: the invariant every document produced
by a successful parse enjoys, and the precondition under which the
canonical rendering reparses to the same document. -/
def WF (p : Puppetfile) : Bool := okStr p.forge ∧ p.modules.all WFmod

/-- The text of one info item inside the canonical merged form of a
module statement, without its `, ` separator. -/
def itemCore : ModuleInfo → Str
  | i@(.Version _) => '\'' :: (showModuleInfo i ++ strL "'")
  | i@(.Info _ _) => showModuleInfo i

/-- The items of the canonical one-line form of a module statement, each
preceded by `, `. -/
def canonItems : List ModuleInfo → Str
  | [] => []
  | i :: rest => ',' :: ' ' :: (itemCore i ++ canonItems rest)

/-- The canonical one-line form of a module statement, as obtained by
trimming and continuation-merging its rendered lines. -/
def canonStmt (m : Module) : Str := modStart m ++ canonItems m.info

/-- The trimmed physical lines of a rendered module: `moduleLines` with
the two-space indentation of attribute lines removed. -/
def tLines (cur : Str) : List ModuleInfo → List Str
  | [] => [cur]
  | i@(.Version _) :: rest =>
    tLines (cur ++ strL ", '" ++ showModuleInfo i ++ strL "'") rest
  | i@(.Info _ _) :: rest => (cur ++ [',']) :: tLines (showModuleInfo i) rest

/-- The quote-parity of a string: the in-quote state after scanning the
whole string starting from state `inq`. -/
def qState : Bool → Str → Bool
  | inq, [] => inq
  | inq, c :: cs => qState (if c = '\'' then !inq else inq) cs

/-- Whether a string has no comma outside quoted literals, scanning from
state `inq`. -/
def noTopComma : Bool → Str → Bool
  | _, [] => true
  | inq, c :: cs =>
    if inq = false ∧ c = ',' then false
    else noTopComma (if c = '\'' then !inq else inq) cs

/-- The end-to-end example manifest of the spec (section 8). -/
def exampleText : Str :=
  strL "forge 'https://forgeapi.puppetlabs.com'\n\nmod 'puppetlabs/stdlib', '4.0.0'\nmod 'puppetlabs/apache',\n  :git => 'https://github.com/puppetlabs/puppetlabs-apache'"

/-- The document the spec's end-to-end example parses to. -/
def pfExample : Puppetfile :=
  ⟨strL "https://forgeapi.puppetlabs.com",
    [⟨strL "puppetlabs/stdlib", [.Version ⟨strL "4.0.0"⟩]⟩,
     ⟨strL "puppetlabs/apache",
       [.Info (strL "git") (strL "https://github.com/puppetlabs/puppetlabs-apache")]⟩]⟩

/-!
Basic lemmas.
-/

theorem contains_iff_mem {s : Str} {c : Char} : s.contains c = true ↔ c ∈ s := by
  simp [List.contains]

theorem splitOnChar_ne_nil (c : Char) (s : Str) : splitOnChar c s ≠ [] := by
  induction s with
  | nil => simp [splitOnChar]
  | cons x xs ih =>
    simp only [splitOnChar]
    cases h : splitOnChar c xs with
    | nil => simp
    | cons h' t => by_cases hx : x = c <;> simp [hx]

theorem splitOnChar_dest (c : Char) (s : Str) : ∃ h t, splitOnChar c s = h :: t := by
  cases hq : splitOnChar c s with
  | nil => exact absurd hq (splitOnChar_ne_nil _ _)
  | cons a b => exact ⟨a, b, rfl⟩

theorem splitOnChar_cons_eq (c x : Char) (xs : Str) {h : Str} {t : List Str}
    (hs : splitOnChar c xs = h :: t) :
    splitOnChar c (x :: xs) = if x = c then [] :: h :: t else (x :: h) :: t := by
  simp only [splitOnChar, hs]

theorem splitOnChar_not_mem {c : Char} {s : Str} (h : c ∉ s) : splitOnChar c s = [s] := by
  induction s with
  | nil => rfl
  | cons x xs ih =>
    have hx : x ≠ c := by rintro rfl; exact h (List.mem_cons_self x xs)
    have hxs : c ∉ xs := fun hm => h (List.mem_cons_of_mem _ hm)
    rw [splitOnChar_cons_eq c x xs (ih hxs), if_neg hx]

theorem splitOnChar_mem {c : Char} {s : Str} (h : c ∈ s) :
    splitOnChar c s =
      s.takeWhile (fun x => x ≠ c) ::
        splitOnChar c ((s.dropWhile (fun x => x ≠ c)).tail) := by
  induction s with
  | nil => cases h
  | cons x xs ih =>
    by_cases hx : x = c
    · subst hx
      obtain ⟨h', t, hsp⟩ := splitOnChar_dest x xs
      rw [splitOnChar_cons_eq x x xs hsp, if_pos rfl]
      simp [List.takeWhile_cons, List.dropWhile_cons, hsp]
    · have hxs : c ∈ xs := by
        cases h with
        | head => exact absurd rfl hx
        | tail _ hm => exact hm
      obtain ⟨h', t, hsp⟩ := splitOnChar_dest c xs
      have hht := hsp.symm.trans (ih hxs)
      rw [splitOnChar_cons_eq c x xs hsp, if_neg hx]
      cases hht
      simp [List.takeWhile_cons, List.dropWhile_cons, hx]

theorem takeWhile_of_all {p : Char → Bool} {l : Str} (h : ∀ x ∈ l, p x = true) :
    l.takeWhile p = l := by
  induction l with
  | nil => rfl
  | cons x xs ih =>
    rw [List.takeWhile_cons_of_pos (h x (List.mem_cons_self x xs))]
    rw [ih fun y hy => h y (List.mem_cons_of_mem _ hy)]

theorem splitOnChar_two {c : Char} {s : Str} (h : c ∈ s) :
    ∃ rest, splitOnChar c s =
      s.takeWhile (fun x => x ≠ c) ::
        ((s.dropWhile (fun x => x ≠ c)).tail).takeWhile (fun x => x ≠ c) :: rest := by
  rw [splitOnChar_mem h]
  by_cases h2 : c ∈ (s.dropWhile (fun x => x ≠ c)).tail
  · exact ⟨_, by rw [splitOnChar_mem h2]⟩
  · refine ⟨[], ?_⟩
    have hall : ∀ y ∈ (s.dropWhile (fun x => x ≠ c)).tail, (fun x => decide (x ≠ c)) y = true := by
      intro y hy
      simp only [decide_eq_true_eq]
      rintro rfl
      exact h2 hy
    rw [splitOnChar_not_mem h2, takeWhile_of_all hall]

theorem lastForge_eq (stmts : List Stmt) : lastForge stmts = lastUrl (forgeUrls stmts) := by
  induction stmts with
  | nil => rfl
  | cons s rest ih =>
    cases s with
    | forgeS u =>
      simp only [lastForge, forgeUrls, lastUrl, ih]
    | modS m =>
      simp only [lastForge, forgeUrls, ih]

theorem firstVersion_filter (l : List ModuleInfo) :
    firstVersion (l.filter ModuleInfo.is_version) = firstVersion l := by
  induction l with
  | nil => rfl
  | cons i rest ih =>
    cases i <;> simp [firstVersion, ModuleInfo.is_version, List.filter_cons, ih]

theorem firstVersion_none {l : List ModuleInfo} (h : ∀ i ∈ l, i.is_version = false) :
    firstVersion l = none := by
  induction l with
  | nil => rfl
  | cons i rest ih =>
    cases i with
    | Version v => exact absurd (h _ (List.mem_cons_self _ _)) (by simp [ModuleInfo.is_version])
    | Info k v => exact ih fun j hj => h j (List.mem_cons_of_mem _ hj)

theorem firstVersion_append {pre : List ModuleInfo} {v : VersionReq} (post : List ModuleInfo)
    (h : ∀ i ∈ pre, i.is_version = false) :
    firstVersion (pre ++ ModuleInfo.Version v :: post) = some v := by
  induction pre with
  | nil => rfl
  | cons i rest ih =>
    cases i with
    | Version w => exact absurd (h _ (List.mem_cons_self _ _)) (by simp [ModuleInfo.is_version])
    | Info k w =>
      simpa [firstVersion] using ih fun j hj => h j (List.mem_cons_of_mem _ hj)

/-!
Claims about the query helpers and the URL builder.
-/

/-- C9 (counterexample): the claim reads `user_name_pair` as splitting
at the first `/`, with everything after it becoming the module-name
component; on the name `x/y/z` the code instead returns the first two
`/`-separated segments, `("x", "y")`, which differs from the claimed
`("x", "y/z")`. -/
theorem user_name_pair_first_slash_cex :
    Module.user_name_pair ⟨strL "x/y/z", []⟩ = some (strL "x", strL "y") ∧
      some (strL "x", strL "y") ≠ some ((strL "x", strL "y/z") : Str × Str) := by
  decide

/-- C9 (amended): `user_name_pair` returns `none` when the name has no
`/`; otherwise it returns the segment before the first `/` and the
segment between the first and the second `/` (the remainder after a
second `/` is dropped).  On `apache/puppet` it yields
`(apache, puppet)`, on `puppet` it yields `none`. -/
theorem user_name_pair_split (m : Module) :
    (m.name.contains '/' = false → m.user_name_pair = none) ∧
    (m.name.contains '/' = true →
      m.user_name_pair = some (m.name.takeWhile (fun c => c ≠ '/'),
        ((m.name.dropWhile (fun c => c ≠ '/')).tail).takeWhile (fun c => c ≠ '/'))) := by
  constructor
  · intro h
    have hnm : '/' ∉ m.name := fun hm => by
      rw [contains_iff_mem.mpr hm] at h
      cases h
    simp [Module.user_name_pair, hnm]
  · intro h
    have hm := contains_iff_mem.mp h
    obtain ⟨rest, hrest⟩ := splitOnChar_two hm
    simp [Module.user_name_pair, hm, hrest]

/-- C9 (witness for the amended claim): the amended claim evaluated on
the names `apache/puppet` and `puppet`. -/
theorem user_name_pair_split_witness :
    Module.user_name_pair ⟨strL "apache/puppet", []⟩ =
        some (strL "apache", strL "puppet") ∧
      Module.user_name_pair ⟨strL "puppet", []⟩ = none := by
  constructor
  · have h := (user_name_pair_split ⟨strL "apache/puppet", []⟩).2 (by decide)
    exact h.trans (by decide)
  · exact (user_name_pair_split ⟨strL "puppet", []⟩).1 (by decide)

/-- C2 (counterexample): on the name `a/b/c` the code returns
`("a", "b")`, not the claimed `("a", "b/c")`: the remainder after the
second `/` is dropped, not folded into the module-name component. -/
theorem user_name_pair_multislash_cex :
    Module.user_name_pair ⟨strL "a/b/c", []⟩ = some (strL "a", strL "b") ∧
      some (strL "a", strL "b") ≠ some ((strL "a", strL "b/c") : Str × Str) := by
  decide

/-- C2 (amended): for every `Module` whose name contains more than one
`/` (the split has at least three segments), `user_name_pair` returns
the first two `/`-separated segments and drops the remainder; in
particular on `a/b/c` it returns `("a", "b")`. -/
theorem user_name_pair_multislash (m : Module) (u n : Str) (rest : List Str)
    (h : splitOnChar '/' m.name = u :: n :: rest) (_hr : rest ≠ []) :
    m.user_name_pair = some (u, n) := by
  have hmem : '/' ∈ m.name := by
    by_contra hnm
    rw [splitOnChar_not_mem hnm] at h
    cases h
  simp [Module.user_name_pair, hmem, h]

/-- C2 (witness for the amended claim): the amended claim evaluated on
the name `a/b/c`. -/
theorem user_name_pair_multislash_witness :
    Module.user_name_pair ⟨strL "a/b/c", []⟩ = some (strL "a", strL "b") :=
  user_name_pair_multislash ⟨strL "a/b/c", []⟩ (strL "a") (strL "b") [strL "c"]
    (by decide) (by decide)

/-- C10: `user_name_pair` is total and never panics: whenever the guard
`name.contains("/")` holds, splitting the name on `/` yields at least
two parts, so the two `unwrap` calls always succeed (the fallback arm of
the model is never taken) and a pair is returned. -/
theorem user_name_pair_no_panic (m : Module) (h : m.name.contains '/' = true) :
    2 ≤ (splitOnChar '/' m.name).length ∧ m.user_name_pair.isSome = true := by
  have hm := contains_iff_mem.mp h
  obtain ⟨rest, hrest⟩ := splitOnChar_two hm
  constructor
  · rw [hrest]
    simp only [List.length_cons]
    omega
  · simp [Module.user_name_pair, hm, hrest]

/-- C10 (witness): the safety statement evaluated on the name `a/b`. -/
theorem user_name_pair_no_panic_witness :
    2 ≤ (splitOnChar '/' (strL "a/b")).length ∧
      (Module.user_name_pair ⟨strL "a/b", []⟩).isSome = true :=
  user_name_pair_no_panic ⟨strL "a/b", []⟩ (by decide)

/-- C3: for a module whose name carries an owner/name pair,
`version_url` strips a single trailing `/` from the forge URL if present
and returns `Ok` of `<forge_url>/users/<owner>/modules/<name>/releases/find.json`;
appending a trailing `/` to a URL that lacks one does not change the
result. -/
theorem version_url_ok (m : Module) (url u n : Str)
    (h : m.user_name_pair = some (u, n)) :
    m.version_url url = .ok (stripTrailingSlash url ++ strL "/users/" ++ u ++
        strL "/modules/" ++ n ++ strL "/releases/find.json") ∧
      (url.getLast? ≠ some '/' → m.version_url (url ++ ['/']) = m.version_url url) := by
  constructor
  · simp [Module.version_url, h]
  · intro hns
    have h1 : stripTrailingSlash (url ++ ['/']) = url := by
      simp [stripTrailingSlash, List.getLast?_concat, List.dropLast_concat]
    have h2 : stripTrailingSlash url = url := by
      simp [stripTrailingSlash, hns]
    simp [Module.version_url, h, h1, h2]

/-- C3 (witness): the claim evaluated on the module `a/b` and the forge
URL `https://forge.example` (with and without a trailing slash). -/
theorem version_url_ok_witness :
    Module.version_url ⟨strL "a/b", []⟩ (strL "https://forge.example" ++ ['/']) =
      Module.version_url ⟨strL "a/b", []⟩ (strL "https://forge.example") :=
  (version_url_ok ⟨strL "a/b", []⟩ (strL "https://forge.example") (strL "a") (strL "b")
    (by decide)).2 (by decide)

/-- C7: for a module whose name contains no `/`, `version_url` returns
an `Err` whose kind is `UrlBuilding` (with the fixed description and no
detail), and no URL string is produced. -/
theorem version_url_no_slash_err (m : Module) (url : Str)
    (h : m.name.contains '/' = false) :
    m.version_url url = .error ⟨.UrlBuilding, strL "Could not build url", none⟩ := by
  have hnm : '/' ∉ m.name := fun hm => by
    rw [contains_iff_mem.mpr hm] at h
    cases h
  have hp : m.user_name_pair = none := by simp [Module.user_name_pair, hnm]
  simp [Module.version_url, hp]

/-- C7 (witness): the claim evaluated on the module `b`. -/
theorem version_url_no_slash_err_witness :
    Module.version_url ⟨strL "b", []⟩ (strL "https://forge.example") =
      .error ⟨.UrlBuilding, strL "Could not build url", none⟩ :=
  version_url_no_slash_err ⟨strL "b", []⟩ (strL "https://forge.example") (by decide)

/-- C6: `version()` returns `Some` of the constraint of the first
`Version` entry of `info` and `None` when there is none; `Attribute`
(`Info`) entries never affect the result (filtering them out changes
nothing), even when several `Version` entries are present. -/
theorem version_first_version (m : Module) :
    (m.version = firstVersion (m.info.filter ModuleInfo.is_version)) ∧
    ((∀ i ∈ m.info, i.is_version = false) → m.version = none) ∧
    (∀ pre v post, m.info = pre ++ ModuleInfo.Version v :: post →
      (∀ i ∈ pre, i.is_version = false) → m.version = some v) := by
  refine ⟨?_, ?_, ?_⟩
  · exact (firstVersion_filter m.info).symm
  · intro h
    exact firstVersion_none h
  · intro pre v post hsplit h
    rw [Module.version, hsplit]
    exact firstVersion_append post h

/-- C6 (witness): the claim evaluated on a module with info
`[Info git url, Version >=1.0.0]` (first `Version` wins, attributes are
ignored) and on a module with no `Version` entry. -/
theorem version_first_version_witness :
    Module.version ⟨strL "m", [ModuleInfo.Info (strL "git") (strL "url"),
        ModuleInfo.Version ⟨strL ">=1.0.0"⟩]⟩ = some ⟨strL ">=1.0.0"⟩ ∧
      Module.version ⟨strL "m", [ModuleInfo.Info (strL "git") (strL "url")]⟩ = none := by
  constructor
  · exact (version_first_version ⟨strL "m", [ModuleInfo.Info (strL "git") (strL "url"),
      ModuleInfo.Version ⟨strL ">=1.0.0"⟩]⟩).2.2
      [ModuleInfo.Info (strL "git") (strL "url")] ⟨strL ">=1.0.0"⟩ [] rfl (by decide)
  · exact (version_first_version ⟨strL "m", [ModuleInfo.Info (strL "git") (strL "url")]⟩).2.1
      (by decide)

/-!
Claims about the parser boundary.
-/

/-- C4: under the spec-modelled parser, a manifest whose statements all
parse but contain no forge statement fails with `MissingForge`, and a
manifest with two forge statements succeeds with the document's forge
field set to the later URL (last occurrence wins). -/
theorem parse_forge_policy (text : Str) (stmts : List Stmt)
    (h : mapME parseStmt (logicalStmts text) = .ok stmts) :
    (forgeUrls stmts = [] → parseE text = .error .MissingForge) ∧
    (∀ u1 u2, forgeUrls stmts = [u1, u2] →
      parseE text = .ok ⟨u2, modsOf stmts⟩) := by
  have hp : parseE text = buildDoc stmts := by simp [parseE, h]
  constructor
  · intro h0
    have hl : lastForge stmts = none := by rw [lastForge_eq, h0]; rfl
    simp [hp, buildDoc, hl]
  · intro u1 u2 h2
    have hl : lastForge stmts = some u2 := by rw [lastForge_eq, h2]; rfl
    simp [hp, buildDoc, hl]

/-- C4 (witness): a manifest with a module statement and no forge
statement fails with `MissingForge`; a manifest with two forge
statements parses with the later URL. -/
theorem parse_forge_policy_witness :
    parseE (strL "mod 'x'") = .error .MissingForge ∧
      parseE (strL "forge 'a'\nforge 'b'") = .ok ⟨strL "b", []⟩ := by
  constructor
  · exact (parse_forge_policy (strL "mod 'x'") [.modS ⟨strL "x", []⟩] (by decide)).1 (by decide)
  · exact (parse_forge_policy (strL "forge 'a'\nforge 'b'")
      [.forgeS (strL "a"), .forgeS (strL "b")] (by decide)).2 (strL "a") (strL "b") (by decide)

/-- C5 (counterexample): the public `parse` of `src/lib.rs` has error
type `String`; a concrete failing parse returns a plain message string,
which carries no `kind` discriminant and no `detail` field. -/
theorem parse_error_plain_cex :
    Puppetfile.parse (strL "mod 'x'") = .error (strL "missing forge statement") := by
  decide

/-- C5 (amended): `parse` returns either a document or a plain message
string (never a partial document); the kind/description/detail structure
belongs to `PuppetfileError`, the error type of the version-lookup
functions: every error produced by `version_url` carries the
`UrlBuilding` kind, a human-readable description and a (here absent)
optional detail. -/
theorem parse_error_design :
    (∀ text : Str, (∃ doc, Puppetfile.parse text = .ok doc) ∨
      (∃ msg : Str, Puppetfile.parse text = .error msg)) ∧
    (∀ (m : Module) (url : Str) (e : PuppetfileError),
      m.version_url url = .error e →
        e.kind = .UrlBuilding ∧ e.desc = strL "Could not build url" ∧ e.detail = none) := by
  constructor
  · intro text
    cases h : Puppetfile.parse text with
    | ok d => exact .inl ⟨d, rfl⟩
    | error msg => exact .inr ⟨msg, rfl⟩
  · intro m url e h
    cases hp : m.user_name_pair with
    | some p =>
      obtain ⟨u, n⟩ := p
      simp [Module.version_url, hp] at h
    | none =>
      simp only [Module.version_url, hp] at h
      cases h
      exact ⟨rfl, rfl, rfl⟩

/-- C5 (witness for the amended claim): the amended claim evaluated at a
concrete manifest and at a concrete `version_url` error. -/
theorem parse_error_design_witness :
    ((∃ doc, Puppetfile.parse (strL "forge 'u'") = .ok doc) ∨
      (∃ msg : Str, Puppetfile.parse (strL "forge 'u'") = .error msg)) ∧
    ((⟨.UrlBuilding, strL "Could not build url", none⟩ : PuppetfileError).kind = .UrlBuilding ∧
      (⟨.UrlBuilding, strL "Could not build url", none⟩ : PuppetfileError).desc =
        strL "Could not build url" ∧
      (⟨.UrlBuilding, strL "Could not build url", none⟩ : PuppetfileError).detail = none) := by
  constructor
  · exact parse_error_design.1 (strL "forge 'u'")
  · exact parse_error_design.2 ⟨strL "b", []⟩ (strL "u")
      ⟨.UrlBuilding, strL "Could not build url", none⟩ (by decide)

theorem moduleLines_ne_nil (info : List ModuleInfo) (cur : Str) :
    moduleLines cur info ≠ [] := by
  induction info generalizing cur with
  | nil => simp [moduleLines]
  | cons i rest ih => cases i <;> simp [moduleLines, ih]

theorem joinLines_cons {L : List Str} (x : Str) (h : L ≠ []) :
    joinLines (x :: L) = x ++ '\n' :: joinLines L := by
  cases L with
  | nil => exact absurd rfl h
  | cons b bs => rfl

theorem joinLines_append {xs : List Str} (ys : List Str) (hx : xs ≠ []) (hy : ys ≠ []) :
    joinLines (xs ++ ys) = joinLines xs ++ '\n' :: joinLines ys := by
  induction xs with
  | nil => exact absurd rfl hx
  | cons a as ih =>
    cases as with
    | nil =>
      rw [List.cons_append, List.nil_append, joinLines_cons a hy]
      rfl
    | cons a2 as2 =>
      rw [List.cons_append, @joinLines_cons ((a2 :: as2) ++ ys) a (by simp), ih (by simp)]
      rw [@joinLines_cons (a2 :: as2) a (by simp)]
      simp [List.append_assoc]

theorem moduleLines_join (info : List ModuleInfo) (cur : Str) :
    joinLines (moduleLines cur info) = cur ++ infoItemsText info := by
  induction info generalizing cur with
  | nil => simp [moduleLines, joinLines, infoItemsText]
  | cons i rest ih =>
    cases i with
    | Version v =>
      rw [moduleLines, ih, infoItemsText]
      simp [List.append_assoc]
    | Info k v =>
      rw [moduleLines, joinLines_cons _ (moduleLines_ne_nil rest _), ih, infoItemsText]
      have h2 : strL ",\n  " = ',' :: '\n' :: ' ' :: ' ' :: ([] : Str) := by decide
      have h3 : strL "  " = ' ' :: ' ' :: ([] : Str) := by decide
      simp [h2, h3, List.append_assoc]

theorem showModule_eq (m : Module) :
    showModule m = modStart m ++ infoItemsText m.info := by
  simp [showModule, modStart, List.append_assoc]

theorem modulesText_eq (ms : List Module) :
    modulesText ms =
      joinLines ((ms.map (fun m => [] :: moduleLines (modStart m) m.info)).flatten ++ [[]]) := by
  induction ms with
  | nil => rfl
  | cons m ms ih =>
    have hRest : (ms.map (fun m => [] :: moduleLines (modStart m) m.info)).flatten
          ++ [[]] ≠ [] := by
      intro hcontra
      simpa using congrArg List.length hcontra
    have hmL := moduleLines_ne_nil m.info (modStart m)
    have hcons : moduleLines (modStart m) m.info ++
        ((ms.map (fun m => [] :: moduleLines (modStart m) m.info)).flatten ++ [[]]) ≠ [] := by
      intro hc
      exact hmL (List.append_eq_nil.mp hc).1
    simp only [List.map_cons, List.flatten_cons, List.cons_append, List.append_assoc]
    rw [joinLines_cons _ hcons, joinLines_append _ hmL hRest, moduleLines_join, ← ih]
    rw [modulesText, showModule_eq]
    simp [List.append_assoc]

theorem showPuppetfile_lines (p : Puppetfile) : showPuppetfile p = joinLines (pfLines p) := by
  have hRest : (p.modules.map (fun m => [] :: moduleLines (modStart m) m.info)).flatten
        ++ [[]] ≠ [] := by
    intro hcontra
    simpa using congrArg List.length hcontra
  rw [showPuppetfile, modulesText_eq, pfLines]
  rw [joinLines_cons _ (by simp), joinLines_cons _ hRest]
  have hq : strL "'\n\n" = '\'' :: '\n' :: '\n' :: ([] : Str) := by decide
  have hq2 : strL "'" = '\'' :: ([] : Str) := by decide
  simp [forgeLine, hq, hq2, List.append_assoc]

/-!
Claim C8: the layout the claim describes, next to the code's layout.
-/

/-- C8 (counterexample): the code's renderer emits an extra newline
before each module, so the first module is preceded by two blank lines,
not the single blank line the claim describes: on the document with
forge `u` and one module `a` the code renders `forge 'u'\n\n\nmod 'a'\n`
while the claimed layout is `forge 'u'\n\nmod 'a'\n`. -/
theorem render_layout_cex :
    showPuppetfile ⟨strL "u", [⟨strL "a", []⟩]⟩ = strL "forge 'u'\n\n\nmod 'a'\n" ∧
      specRenderLayout ⟨strL "u", [⟨strL "a", []⟩]⟩ = strL "forge 'u'\n\nmod 'a'\n" ∧
      showPuppetfile ⟨strL "u", [⟨strL "a", []⟩]⟩ ≠
        specRenderLayout ⟨strL "u", [⟨strL "a", []⟩]⟩ := by
  decide

/-- C8 (amended): rendering produces exactly these physical lines,
joined by newlines: the line `forge '<url>'`, a blank line, then for
each module in sequence order a further blank line followed by the
module's lines — the line `mod '<name>'` extended inline by
`, '<constraint>'` for each `Version` item and closed by a comma
whenever an `Attribute` item follows, which is rendered as a two-space
indented `:<key> => '<value>'` continuation line — and a final blank
line.  Hence one blank line separates consecutive modules, two blank
lines separate the forge line from the first module, and the output ends
with a newline. -/
theorem render_layout (p : Puppetfile) : showPuppetfile p = joinLines (pfLines p) :=
  showPuppetfile_lines p

/-!
Character-class and subset lemmas for the round-trip proof.
-/

theorem okStr_mem {s : Str} (h : okStr s = true) {a : Char} (ha : a ∈ s) :
    a ≠ '\'' ∧ a ≠ '\n' := by
  have := List.all_eq_true.mp h a ha
  simpa using this

theorem isReqChar_ok {c : Char} (h : isReqChar c = true) : c ≠ '\'' ∧ c ≠ '\n' := by
  constructor <;> rintro rfl <;> exact absurd h (by decide)

theorem isSymChar_ok {c : Char} (h : isSymChar c = true) :
    c ≠ '\'' ∧ c ≠ '\n' ∧ c ≠ ',' ∧ isWsChar c = false := by
  refine ⟨?_, ?_, ?_, ?_⟩
  · rintro rfl; exact absurd h (by decide)
  · rintro rfl; exact absurd h (by decide)
  · rintro rfl; exact absurd h (by decide)
  · rcases hw : isWsChar c with _ | _
    · rfl
    · have : c = ' ' ∨ c = '\t' ∨ c = '\r' ∨ c = '\n' := by
        simpa [isWsChar] using hw
      rcases this with rfl | rfl | rfl | rfl <;> exact absurd h (by decide)

theorem validVersionReq_facts {s : Str} (h : validVersionReq s = true) :
    s ≠ [] ∧ ∀ a ∈ s, a ≠ '\'' ∧ a ≠ '\n' := by
  have h2 : s ≠ [] ∧ s.all isReqChar = true := by simpa [validVersionReq] using h
  exact ⟨h2.1, fun a ha => isReqChar_ok (List.all_eq_true.mp h2.2 a ha)⟩

theorem okKey_facts {s : Str} (h : okKey s = true) :
    s ≠ [] ∧ ∀ a ∈ s, isSymChar a = true := by
  have h2 : s ≠ [] ∧ s.all isSymChar = true := by simpa [okKey] using h
  exact ⟨h2.1, fun a ha => List.all_eq_true.mp h2.2 a ha⟩

theorem splitOnChar_parts {c : Char} {s : Str} :
    ∀ p ∈ splitOnChar c s, c ∉ p ∧ p ⊆ s := by
  induction s with
  | nil =>
    intro p hp
    simp only [splitOnChar, List.mem_singleton] at hp
    subst hp
    exact ⟨List.not_mem_nil c, List.nil_subset _⟩
  | cons x xs ih =>
    intro p hp
    obtain ⟨h1, t1, hsp⟩ := splitOnChar_dest c xs
    rw [splitOnChar_cons_eq c x xs hsp] at hp
    by_cases hx : x = c
    · rw [if_pos hx] at hp
      rcases List.mem_cons.mp hp with rfl | hp2
      · exact ⟨List.not_mem_nil c, List.nil_subset _⟩
      · have := ih p (hsp ▸ hp2)
        exact ⟨this.1, fun a ha => List.mem_cons_of_mem _ (this.2 ha)⟩
    · rw [if_neg hx] at hp
      rcases List.mem_cons.mp hp with rfl | hp2
      · have hh := ih h1 (by rw [hsp]; exact List.mem_cons_self _ _)
        constructor
        · intro hc
          rcases List.mem_cons.mp hc with rfl | hc2
          · exact hx rfl
          · exact hh.1 hc2
        · intro a ha
          rcases List.mem_cons.mp ha with rfl | ha2
          · exact List.mem_cons_self _ _
          · exact List.mem_cons_of_mem _ (hh.2 ha2)
      · have := ih p (by rw [hsp]; exact List.mem_cons_of_mem _ hp2)
        exact ⟨this.1, fun a ha => List.mem_cons_of_mem _ (this.2 ha)⟩

theorem splitOnChar_append_sep {c : Char} {l t : Str} (h : c ∉ l) :
    splitOnChar c (l ++ c :: t) = l :: splitOnChar c t := by
  induction l with
  | nil =>
    obtain ⟨h1, t1, hsp⟩ := splitOnChar_dest c t
    rw [List.nil_append, splitOnChar_cons_eq c c t hsp, if_pos rfl, hsp]
  | cons x l ih =>
    have hx : x ≠ c := fun he => h (he ▸ List.mem_cons_self x l)
    have hl : c ∉ l := fun hm => h (List.mem_cons_of_mem _ hm)
    obtain ⟨h1, t1, hsp⟩ := splitOnChar_dest c (l ++ c :: t)
    rw [List.cons_append, splitOnChar_cons_eq c x _ hsp, if_neg hx]
    have h2 := hsp.symm.trans (ih hl)
    cases h2
    rfl

theorem splitOnChar_joinLines {ls : List Str} (hne : ls ≠ [])
    (hfree : ∀ l ∈ ls, '\n' ∉ l) : splitOnChar '\n' (joinLines ls) = ls := by
  induction ls with
  | nil => exact absurd rfl hne
  | cons a as ih =>
    cases as with
    | nil => exact splitOnChar_not_mem (hfree a (List.mem_cons_self _ _))
    | cons b bs =>
      rw [joinLines_cons a (by simp),
        splitOnChar_append_sep (hfree a (List.mem_cons_self _ _)),
        ih (by simp) (fun l hl => hfree l (List.mem_cons_of_mem _ hl))]

theorem dropWhile_subset (p : Char → Bool) (l : Str) : l.dropWhile p ⊆ l :=
  (List.dropWhile_sublist p).subset

theorem takeWhile_subset (p : Char → Bool) (l : Str) : l.takeWhile p ⊆ l :=
  (List.takeWhile_sublist p).subset

theorem trimStr_subset (s : Str) : trimStr s ⊆ s := by
  intro a ha
  unfold trimStr at ha
  rw [List.mem_reverse] at ha
  have h1 := dropWhile_subset isWsChar (s.dropWhile isWsChar).reverse ha
  rw [List.mem_reverse] at h1
  exact dropWhile_subset isWsChar s h1

theorem mergeCont_chars :
    ∀ ls : List Str, ∀ l ∈ mergeCont ls, ∀ a ∈ l, a = ' ' ∨ ∃ l0 ∈ ls, a ∈ l0 := by
  intro ls
  induction ls with
  | nil => intro l hl; simp [mergeCont] at hl
  | cons x xs ih =>
    intro l hl a ha
    rw [mergeCont] at hl
    by_cases hc : x.getLast? = some ','
    · rw [if_pos hc] at hl
      cases hm : mergeCont xs with
      | nil =>
        rw [hm] at hl
        rcases List.mem_singleton.mp hl with rfl
        exact .inr ⟨l, List.mem_cons_self _ _, ha⟩
      | cons h t =>
        rw [hm] at hl
        rcases List.mem_cons.mp hl with rfl | ht
        · rcases List.mem_append.mp ha with h1 | h2
          · exact .inr ⟨x, List.mem_cons_self _ _, h1⟩
          · rcases List.mem_cons.mp h2 with rfl | hh
            · exact .inl rfl
            · rcases ih h (by rw [hm]; exact List.mem_cons_self _ _) a hh with h3 | ⟨l0, hl0, hal0⟩
              · exact .inl h3
              · exact .inr ⟨l0, List.mem_cons_of_mem _ hl0, hal0⟩
        · rcases ih l (by rw [hm]; exact List.mem_cons_of_mem _ ht) a ha with h3 | ⟨l0, hl0, hal0⟩
          · exact .inl h3
          · exact .inr ⟨l0, List.mem_cons_of_mem _ hl0, hal0⟩
    · rw [if_neg hc] at hl
      rcases List.mem_cons.mp hl with rfl | ht
      · exact .inr ⟨l, List.mem_cons_self _ _, ha⟩
      · rcases ih l ht a ha with h3 | ⟨l0, hl0, hal0⟩
        · exact .inl h3
        · exact .inr ⟨l0, List.mem_cons_of_mem _ hl0, hal0⟩

theorem logicalStmts_nl_free (text : Str) :
    ∀ l ∈ logicalStmts text, '\n' ∉ l := by
  intro l hl hnl
  unfold logicalStmts at hl
  have hl2 := List.mem_of_mem_filter hl
  rcases mergeCont_chars _ l hl2 '\n' hnl with h1 | ⟨l0, hl0, hal0⟩
  · cases h1
  · rcases List.mem_map.mp hl0 with ⟨l1, hl1, rfl⟩
    have h2 := trimStr_subset l1 hal0
    exact (splitOnChar_parts l1 hl1).1 h2

/-!
Trimming lemmas.
-/

theorem append_ne_nil_right {l r : Str} (h : r ≠ []) : l ++ r ≠ [] := fun hc =>
  h (List.append_eq_nil.mp hc).2

theorem append_ne_nil_left {l r : Str} (h : l ≠ []) : l ++ r ≠ [] := fun hc =>
  h (List.append_eq_nil.mp hc).1

theorem getLast?_append_right {l r : Str} (h : r ≠ []) : (l ++ r).getLast? = r.getLast? :=
  List.getLast?_append_of_ne_nil l h

theorem not_mem_append {a : Char} {l r : Str} (hl : a ∉ l) (hr : a ∉ r) : a ∉ l ++ r := by
  intro h
  rcases List.mem_append.mp h with h | h
  exacts [hl h, hr h]

theorem dropWhile_ws_append {l r : Str} (h : l.dropWhile isWsChar ≠ []) :
    (l ++ r).dropWhile isWsChar = l.dropWhile isWsChar ++ r := by
  rw [List.dropWhile_append]
  simp [h]

theorem trim_eq_dropWhile {s : Str} {c : Char} (hlast : s.getLast? = some c)
    (hc : isWsChar c = false) : trimStr s = s.dropWhile isWsChar := by
  unfold trimStr
  cases hd : s.dropWhile isWsChar with
  | nil => simp [hd]
  | cons y ys =>
    have hlast2 : (y :: ys).getLast? = some c := by
      rw [← hd]
      conv at hlast => rw [← List.takeWhile_append_dropWhile isWsChar s]
      rw [getLast?_append_right (by rw [hd]; simp)] at hlast
      exact hlast
    have hrev : (y :: ys).reverse.head? = some c := by
      rw [List.head?_reverse]
      exact hlast2
    cases hr : (y :: ys).reverse with
    | nil => simp at hr
    | cons z zs =>
      have hz : z = c := by
        rw [hr] at hrev
        exact Option.some.inj hrev
      rw [List.dropWhile_cons_of_neg (by rw [hz]; simp [hc]), ← hr, List.reverse_reverse]

theorem trim_eq_self {s : Str} {a c : Char} (hhead : s.head? = some a)
    (ha : isWsChar a = false) (hlast : s.getLast? = some c) (hc : isWsChar c = false) :
    trimStr s = s := by
  rw [trim_eq_dropWhile hlast hc]
  cases s with
  | nil => rfl
  | cons y ys =>
    have hy : y = a := Option.some.inj hhead
    rw [List.dropWhile_cons_of_neg (by rw [hy]; simp [ha])]

theorem forgeLine_head (p : Puppetfile) : (forgeLine p).head? = some 'f' := by
  have h : strL "forge '" = 'f' :: strL "orge '" := by decide
  rw [forgeLine, h, List.cons_append, List.cons_append, List.head?_cons]

theorem forgeLine_last (p : Puppetfile) : (forgeLine p).getLast? = some '\'' := by
  rw [forgeLine, getLast?_append_right (by decide)]
  decide

theorem modStart_last (m : Module) : (modStart m).getLast? = some '\'' := by
  rw [modStart, getLast?_append_right (by decide)]
  decide

theorem modStart_drop (m : Module) : (modStart m).dropWhile isWsChar = modStart m := by
  have h : strL "mod '" = 'm' :: strL "od '" := by decide
  rw [modStart, h, List.cons_append, List.cons_append,
    List.dropWhile_cons_of_neg (by decide)]

theorem modStart_ne_nil (m : Module) : modStart m ≠ [] := by
  have h : strL "mod '" = 'm' :: strL "od '" := by decide
  rw [modStart, h, List.cons_append, List.cons_append]
  simp

theorem showInfoPair_last (k v : Str) :
    (showModuleInfo (ModuleInfo.Info k v)).getLast? = some '\'' := by
  rw [showModuleInfo, ← List.singleton_append,
    getLast?_append_right (append_ne_nil_right (by decide)),
    getLast?_append_right (by decide)]
  decide

/-!
The trimmed lines of a rendered document.
-/

theorem moduleLines_trim (info : List ModuleInfo) :
    ∀ cur tcur : Str, info.all WFinfo = true →
      cur.dropWhile isWsChar = tcur → tcur ≠ [] → cur.getLast? = some '\'' →
      (moduleLines cur info).map trimStr = tLines tcur info := by
  induction info with
  | nil =>
    intro cur tcur _ hd htc hlast
    simp only [moduleLines, tLines, List.map_cons, List.map_nil]
    rw [trim_eq_dropWhile hlast (by decide), hd]
  | cons i rest ih =>
    intro cur tcur hinfo hd htc hlast
    have hrest : rest.all WFinfo = true :=
      List.all_eq_true.mpr fun j hj => List.all_eq_true.mp hinfo j (List.mem_cons_of_mem _ hj)
    cases i with
    | Version v =>
      have step1 : (cur ++ strL ", '").dropWhile isWsChar = tcur ++ strL ", '" := by
        rw [dropWhile_ws_append (by rw [hd]; exact htc), hd]
      have step2 : ((cur ++ strL ", '") ++ showModuleInfo (ModuleInfo.Version v)).dropWhile
          isWsChar = (tcur ++ strL ", '") ++ showModuleInfo (ModuleInfo.Version v) := by
        rw [dropWhile_ws_append (by rw [step1]; exact append_ne_nil_right (by decide)), step1]
      have step3 : (((cur ++ strL ", '") ++ showModuleInfo (ModuleInfo.Version v)) ++
          strL "'").dropWhile isWsChar =
          ((tcur ++ strL ", '") ++ showModuleInfo (ModuleInfo.Version v)) ++ strL "'" := by
        rw [dropWhile_ws_append (by
          rw [step2]
          exact append_ne_nil_left (append_ne_nil_right (by decide))), step2]
      simp only [moduleLines, tLines]
      exact ih _ _ hrest step3 (append_ne_nil_right (by decide))
        (by rw [getLast?_append_right (by decide)]; decide)
    | Info k v =>
      have h1 : trimStr (cur ++ [',']) = tcur ++ [','] := by
        rw [trim_eq_dropWhile (List.getLast?_concat cur) (by decide),
          dropWhile_ws_append (by rw [hd]; exact htc), hd]
      have hd' : (strL "  " ++ showModuleInfo (ModuleInfo.Info k v)).dropWhile isWsChar =
          showModuleInfo (ModuleInfo.Info k v) := by
        have h2 : strL "  " = ' ' :: ' ' :: ([] : Str) := by decide
        rw [h2, List.cons_append, List.cons_append, List.nil_append,
          List.dropWhile_cons_of_pos (by decide), List.dropWhile_cons_of_pos (by decide),
          showModuleInfo, List.dropWhile_cons_of_neg (by decide)]
      have htc' : showModuleInfo (ModuleInfo.Info k v) ≠ [] := by
        rw [showModuleInfo]
        simp
      simp only [moduleLines, tLines, List.map_cons]
      rw [h1]
      exact congrArg _ (ih _ _ hrest hd' htc' (showInfoPair_last k v))

theorem moduleLines_nl_free (info : List ModuleInfo) :
    ∀ cur : Str, info.all WFinfo = true → '\n' ∉ cur →
      ∀ l ∈ moduleLines cur info, '\n' ∉ l := by
  induction info with
  | nil =>
    intro cur _ hcur l hl
    simp only [moduleLines, List.mem_singleton] at hl
    subst hl
    exact hcur
  | cons i rest ih =>
    intro cur hinfo hcur l hl
    have hi : WFinfo i = true := List.all_eq_true.mp hinfo i (List.mem_cons_self _ _)
    have hrest : rest.all WFinfo = true :=
      List.all_eq_true.mpr fun j hj => List.all_eq_true.mp hinfo j (List.mem_cons_of_mem _ hj)
    cases i with
    | Version v =>
      simp only [moduleLines] at hl
      refine ih _ hrest ?_ l hl
      have hv := (validVersionReq_facts (by simpa [WFinfo] using hi)).2
      refine not_mem_append (not_mem_append (not_mem_append hcur (by decide)) ?_) (by decide)
      rw [showModuleInfo]
      intro hm
      exact (hv _ hm).2 rfl
    | Info k v =>
      have hkv : okKey k = true ∧ okStr v = true := by simpa [WFinfo] using hi
      simp only [moduleLines] at hl
      rcases List.mem_cons.mp hl with rfl | hl2
      · exact not_mem_append hcur (by decide)
      · refine ih _ hrest ?_ l hl2
        refine not_mem_append (by decide) ?_
        rw [showModuleInfo]
        intro hm
        rcases List.mem_cons.mp hm with h | hm2
        · exact absurd h (by decide)
        · simp only [List.mem_append] at hm2
          rcases hm2 with ((hk | hl1) | hv2) | hl2
          · exact absurd ((okKey_facts hkv.1).2 _ hk) (by decide)
          · exact absurd hl1 (by decide)
          · exact (okStr_mem hkv.2 hv2).2 rfl
          · exact absurd hl2 (by decide)

theorem pfLines_nl_free (p : Puppetfile) (hWF : WF p = true) :
    ∀ l ∈ pfLines p, '\n' ∉ l := by
  have hWF2 : okStr p.forge = true ∧ p.modules.all WFmod = true := by simpa [WF] using hWF
  intro l hl
  rw [pfLines] at hl
  rcases List.mem_cons.mp hl with rfl | hl
  · rw [forgeLine]
    refine not_mem_append (not_mem_append (by decide) ?_) (by decide)
    intro hm
    exact (okStr_mem hWF2.1 hm).2 rfl
  rcases List.mem_cons.mp hl with rfl | hl
  · exact List.not_mem_nil _
  rcases List.mem_append.mp hl with hl | hl
  · rcases List.mem_flatten.mp hl with ⟨blk, hblk, hlblk⟩
    rcases List.mem_map.mp hblk with ⟨m, hm, rfl⟩
    have hm2 : okStr m.name = true ∧ m.info.all WFinfo = true := by
      simpa [WFmod] using List.all_eq_true.mp hWF2.2 m hm
    rcases List.mem_cons.mp hlblk with rfl | hlblk
    · exact List.not_mem_nil _
    · refine moduleLines_nl_free m.info _ hm2.2 ?_ l hlblk
      rw [modStart]
      refine not_mem_append (not_mem_append (by decide) ?_) (by decide)
      intro hmm
      exact (okStr_mem hm2.1 hmm).2 rfl
  · rcases List.mem_singleton.mp hl with rfl
    exact List.not_mem_nil _

theorem pfLines_trim (p : Puppetfile) (hWF : WF p = true) :
    (pfLines p).map trimStr =
      forgeLine p :: [] ::
        ((p.modules.map (fun m => [] :: tLines (modStart m) m.info)).flatten ++ [[]]) := by
  have hWF2 : okStr p.forge = true ∧ p.modules.all WFmod = true := by simpa [WF] using hWF
  have hblocks : (p.modules.map (fun m => [] :: moduleLines (modStart m) m.info)).flatten.map
      trimStr = (p.modules.map (fun m => [] :: tLines (modStart m) m.info)).flatten := by
    rw [List.map_flatten, List.map_map]
    refine congrArg List.flatten (List.map_congr_left fun m hm => ?_)
    have hmWF : okStr m.name = true ∧ m.info.all WFinfo = true := by
      simpa [WFmod] using List.all_eq_true.mp hWF2.2 m hm
    simp only [Function.comp_apply, List.map_cons]
    rw [moduleLines_trim m.info (modStart m) (modStart m) hmWF.2 (modStart_drop m)
      (modStart_ne_nil m) (modStart_last m)]
    rfl
  rw [pfLines, List.map_cons, List.map_cons, List.map_append, hblocks,
    trim_eq_self (forgeLine_head p) (by decide) (forgeLine_last p) (by decide)]
  rfl

/-!
Continuation-merging of the trimmed lines.
-/

theorem mergeCont_cons_ne {l : Str} (ls : List Str) (h : ¬ l.getLast? = some ',') :
    mergeCont (l :: ls) = l :: mergeCont ls := by
  rw [mergeCont, if_neg h]

theorem mergeCont_tLines (info : List ModuleInfo) :
    ∀ (cur : Str) (rest : List Str), cur.getLast? = some '\'' →
      mergeCont (tLines cur info ++ rest) = (cur ++ canonItems info) :: mergeCont rest := by
  induction info with
  | nil =>
    intro cur rest hlast
    have h : ¬ cur.getLast? = some ',' := by rw [hlast]; decide
    simp only [tLines, List.cons_append, List.nil_append]
    rw [mergeCont_cons_ne rest h, canonItems, List.append_nil]
  | cons i rest' ih =>
    intro cur rest hlast
    cases i with
    | Version v =>
      simp only [tLines, canonItems]
      rw [ih _ rest (by rw [getLast?_append_right (by decide)]; decide)]
      have hl1 : strL ", '" = ',' :: ' ' :: '\'' :: ([] : Str) := by decide
      have hl2 : strL "'" = '\'' :: ([] : Str) := by decide
      simp [itemCore, hl1, hl2, List.append_assoc]
    | Info k v =>
      simp only [tLines, List.cons_append]
      rw [mergeCont, if_pos (List.getLast?_concat cur),
        ih _ rest (showInfoPair_last k v)]
      simp [canonItems, itemCore, List.append_assoc]

theorem mergeCont_blocks (ms : List Module) :
    mergeCont ((ms.map (fun m => [] :: tLines (modStart m) m.info)).flatten ++ [[]]) =
      (ms.map (fun m => [] :: [canonStmt m])).flatten ++ [[]] := by
  induction ms with
  | nil => rfl
  | cons m ms ih =>
    simp only [List.map_cons, List.flatten_cons, List.cons_append, List.append_assoc]
    rw [mergeCont_cons_ne _ (by decide), mergeCont_tLines m.info (modStart m) _
      (modStart_last m), ih]
    rfl

theorem filter_canon (ms : List Module) :
    ((ms.map (fun m => [] :: [canonStmt m])).flatten ++ [[]]).filter (fun l => l ≠ []) =
      ms.map canonStmt := by
  induction ms with
  | nil => rfl
  | cons m ms ih =>
    have hcs : canonStmt m ≠ [] := append_ne_nil_left (modStart_ne_nil m)
    simp only [List.map_cons, List.flatten_cons, List.cons_append, List.append_assoc,
      List.nil_append]
    rw [List.filter_cons_of_neg (by simp), List.filter_cons_of_pos (by simp [hcs]), ih]

theorem logicalStmts_render (p : Puppetfile) (hWF : WF p = true) :
    logicalStmts (showPuppetfile p) = forgeLine p :: p.modules.map canonStmt := by
  have hfne : forgeLine p ≠ [] := append_ne_nil_right (by decide)
  unfold logicalStmts
  rw [showPuppetfile_lines, splitOnChar_joinLines (by simp [pfLines]) (pfLines_nl_free p hWF),
    pfLines_trim p hWF, mergeCont_cons_ne _ (by rw [forgeLine_last]; decide),
    mergeCont_cons_ne _ (by decide), mergeCont_blocks,
    List.filter_cons_of_pos (by simp [hfne]), List.filter_cons_of_neg (by simp),
    filter_canon]

/-!
Parsing the canonical statements back.
-/

theorem parseQuoted_canon {c rest : Str} (hc : ∀ a ∈ c, a ≠ '\'') :
    parseQuoted ('\'' :: (c ++ '\'' :: rest)) = some (c, rest) := by
  have hp : ∀ a ∈ c, (fun x => decide (x ≠ '\'')) a = true :=
    fun a ha => decide_eq_true (hc a ha)
  simp only [parseQuoted]
  rw [List.dropWhile_append_of_pos hp, List.dropWhile_cons_of_neg (by decide),
    List.takeWhile_append_of_pos hp, List.takeWhile_cons_of_neg (by decide),
    List.append_nil]
  rfl

theorem qState_append (s : Str) : ∀ (t : Str) (inq : Bool),
    qState inq (s ++ t) = qState (qState inq s) t := by
  induction s with
  | nil => intro t inq; rfl
  | cons c cs ih =>
    intro t inq
    rw [List.cons_append, qState, ih, qState]

theorem noTopComma_append {s : Str} : ∀ {t : Str} {inq : Bool},
    noTopComma inq s = true → noTopComma (qState inq s) t = true →
    noTopComma inq (s ++ t) = true := by
  induction s with
  | nil => intro t inq _ ht; exact ht
  | cons c cs ih =>
    intro t inq hs ht
    rw [noTopComma] at hs
    by_cases hcc : inq = false ∧ c = ','
    · rw [if_pos hcc] at hs; cases hs
    · rw [if_neg hcc] at hs
      rw [List.cons_append, noTopComma, if_neg hcc]
      exact ih hs ht

theorem scan_quoted {s : Str} (h : ∀ a ∈ s, a ≠ '\'') :
    qState true s = true ∧ noTopComma true s = true := by
  induction s with
  | nil => exact ⟨rfl, rfl⟩
  | cons c cs ih =>
    have hc : c ≠ '\'' := h c (List.mem_cons_self _ _)
    have ihh := ih fun a ha => h a (List.mem_cons_of_mem _ ha)
    constructor
    · rw [qState, if_neg hc]
      exact ihh.1
    · rw [noTopComma, if_neg (by simp), if_neg hc]
      exact ihh.2

theorem scan_sym {s : Str} (h : ∀ a ∈ s, isSymChar a = true) :
    qState false s = false ∧ noTopComma false s = true := by
  induction s with
  | nil => exact ⟨rfl, rfl⟩
  | cons c cs ih =>
    have hc := isSymChar_ok (h c (List.mem_cons_self _ _))
    have ihh := ih fun a ha => h a (List.mem_cons_of_mem _ ha)
    constructor
    · rw [qState, if_neg hc.1]
      exact ihh.1
    · rw [noTopComma, if_neg (by simp [hc.2.2.1]), if_neg hc.1]
      exact ihh.2

theorem itemCore_scan {i : ModuleInfo} (hWF : WFinfo i = true) :
    noTopComma false (' ' :: itemCore i) = true ∧
      qState false (' ' :: itemCore i) = false := by
  cases i with
  | Version v =>
    have hv := validVersionReq_facts (by simpa [WFinfo] using hWF)
    have hq := scan_quoted fun a ha => (hv.2 a ha).1
    constructor
    · rw [noTopComma, if_neg (by simp), if_neg (by decide), itemCore, noTopComma,
        if_neg (by simp), if_pos rfl, Bool.not_false, showModuleInfo]
      exact noTopComma_append hq.2 (by rw [hq.1]; decide)
    · rw [qState, if_neg (by decide), itemCore, qState, if_pos rfl, Bool.not_false,
        showModuleInfo, qState_append, hq.1]
      decide
  | Info k v =>
    have hkv : okKey k = true ∧ okStr v = true := by simpa [WFinfo] using hWF
    have hk := scan_sym (okKey_facts hkv.1).2
    have hv := scan_quoted fun a ha => (okStr_mem hkv.2 ha).1
    have hs1 : qState false (k ++ strL " => '") = true := by
      rw [qState_append, hk.1]
      decide
    have hn1 : noTopComma false (k ++ strL " => '") = true :=
      noTopComma_append hk.2 (by rw [hk.1]; decide)
    have hs2 : qState false ((k ++ strL " => '") ++ v) = true := by
      rw [qState_append, hs1, hv.1]
    have hn2 : noTopComma false ((k ++ strL " => '") ++ v) = true :=
      noTopComma_append hn1 (by rw [hs1]; exact hv.2)
    constructor
    · rw [noTopComma, if_neg (by simp), if_neg (by decide), itemCore, showModuleInfo,
        noTopComma, if_neg (by simp), if_neg (by decide)]
      exact noTopComma_append hn2 (by rw [hs2]; decide)
    · rw [qState, if_neg (by decide), itemCore, showModuleInfo, qState,
        if_neg (by decide), qState_append, hs2]
      decide

theorem splitTC_append (s : Str) : ∀ (inq : Bool) (t h' : Str) (t' : List Str),
    noTopComma inq s = true → splitTC (qState inq s) t = h' :: t' →
    splitTC inq (s ++ t) = (s ++ h') :: t' := by
  induction s with
  | nil =>
    intro inq t h' t' _ hsp
    simpa using hsp
  | cons c cs ih =>
    intro inq t h' t' hno hsp
    rw [noTopComma] at hno
    by_cases hcc : inq = false ∧ c = ','
    · rw [if_pos hcc] at hno
      cases hno
    · rw [if_neg hcc] at hno
      rw [qState] at hsp
      rw [List.cons_append, splitTC, if_neg hcc, ih _ t h' t' hno hsp, List.cons_append]

theorem splitTC_canonItems (info : List ModuleInfo) (hinfo : info.all WFinfo = true) :
    splitTC false (canonItems info) = [] :: info.map (fun i => ' ' :: itemCore i) := by
  induction info with
  | nil => rfl
  | cons i rest ih =>
    have hi : WFinfo i = true := List.all_eq_true.mp hinfo i (List.mem_cons_self _ _)
    have hrest : rest.all WFinfo = true :=
      List.all_eq_true.mpr fun j hj => List.all_eq_true.mp hinfo j (List.mem_cons_of_mem _ hj)
    have hscan := itemCore_scan hi
    rw [canonItems, splitTC, if_pos ⟨rfl, rfl⟩, ← List.cons_append,
      splitTC_append (' ' :: itemCore i) false (canonItems rest) [] _ hscan.1
        (by rw [hscan.2, ih hrest]),
      List.append_nil, List.map_cons]

theorem skipWs_nil : skipWs [] = [] := rfl

theorem parseItem1_canon (name : Str) (i : ModuleInfo) (hWF : WFinfo i = true) :
    parseItem1 name (' ' :: itemCore i) = .ok i := by
  cases i with
  | Version v =>
    have hv := validVersionReq_facts (by simpa [WFinfo] using hWF)
    have hvv : validVersionReq v.str = true := by simpa [WFinfo] using hWF
    have hskip : skipWs (' ' :: '\'' :: (v.str ++ strL "'")) =
        '\'' :: (v.str ++ strL "'") := by
      rw [skipWs, List.dropWhile_cons_of_pos (by decide),
        List.dropWhile_cons_of_neg (by decide)]
    have h2 : strL "'" = '\'' :: ([] : Str) := by decide
    have hpq : parseQuoted ('\'' :: (v.str ++ strL "'")) = some (v.str, []) := by
      rw [h2]
      exact parseQuoted_canon fun a ha => (hv.2 a ha).1
    simp only [itemCore, showModuleInfo, parseItem1, hskip, hpq, skipWs_nil, hvv]
    simp
  | Info k v =>
    have hkv : okKey k = true ∧ okStr v = true := by simpa [WFinfo] using hWF
    have hkfacts := okKey_facts hkv.1
    have hksym : ∀ a ∈ k, isSymChar a = true := hkfacts.2
    have hassoc : k ++ strL " => '" ++ v ++ strL "'" =
        k ++ (strL " => '" ++ (v ++ strL "'")) := by
      simp [List.append_assoc]
    have hl1 : strL " => '" = ' ' :: '=' :: '>' :: ' ' :: '\'' :: ([] : Str) := by decide
    have hskip : skipWs (' ' :: ':' :: (k ++ (strL " => '" ++ (v ++ strL "'")))) =
        ':' :: (k ++ (strL " => '" ++ (v ++ strL "'"))) := by
      rw [skipWs, List.dropWhile_cons_of_pos (by decide),
        List.dropWhile_cons_of_neg (by decide)]
    have htake : (k ++ (strL " => '" ++ (v ++ strL "'"))).takeWhile isSymChar = k := by
      rw [List.takeWhile_append_of_pos hksym, hl1, List.cons_append,
        List.takeWhile_cons_of_neg (by decide), List.append_nil]
    have hdrop : (k ++ (strL " => '" ++ (v ++ strL "'"))).dropWhile isSymChar =
        strL " => '" ++ (v ++ strL "'") := by
      rw [List.dropWhile_append_of_pos hksym, hl1, List.cons_append,
        List.dropWhile_cons_of_neg (by decide)]
    have hskip2 : skipWs (strL " => '" ++ (v ++ strL "'")) =
        '=' :: '>' :: (' ' :: '\'' :: (v ++ strL "'")) := by
      rw [hl1]
      rfl
    have hskip3 : skipWs (' ' :: '\'' :: (v ++ strL "'")) = '\'' :: (v ++ strL "'") := by
      rw [skipWs, List.dropWhile_cons_of_pos (by decide),
        List.dropWhile_cons_of_neg (by decide)]
    have h2 : strL "'" = '\'' :: ([] : Str) := by decide
    have hpq : parseQuoted ('\'' :: (v ++ strL "'")) = some (v, []) := by
      rw [h2]
      exact parseQuoted_canon fun a ha => (okStr_mem hkv.2 ha).1
    simp only [itemCore, showModuleInfo, hassoc, parseItem1, hskip, htake, hdrop,
      hskip2, hskip3, hpq, skipWs_nil]
    simp [hkfacts.1]

theorem parseStmt_forgeLine (p : Puppetfile) (hf : okStr p.forge = true) :
    parseStmt (forgeLine p) = .ok (.forgeS p.forge) := by
  have h1 : forgeLine p =
      'f' :: 'o' :: 'r' :: 'g' :: 'e' :: (' ' :: '\'' :: (p.forge ++ strL "'")) := by
    have h : strL "forge '" =
        'f' :: 'o' :: 'r' :: 'g' :: 'e' :: ' ' :: '\'' :: ([] : Str) := by decide
    rw [forgeLine, h]
    simp
  have hskip : skipWs (' ' :: '\'' :: (p.forge ++ strL "'")) =
      '\'' :: (p.forge ++ strL "'") := by
    rw [skipWs, List.dropWhile_cons_of_pos (by decide),
      List.dropWhile_cons_of_neg (by decide)]
  have h2 : strL "'" = '\'' :: ([] : Str) := by decide
  have hpq : parseQuoted ('\'' :: (p.forge ++ strL "'")) = some (p.forge, []) := by
    rw [h2]
    exact parseQuoted_canon fun a ha => (okStr_mem hf ha).1
  rw [h1]
  simp only [parseStmt, hskip, hpq, skipWs_nil]
  simp

theorem mapME_map {α β γ ε : Type} (f : β → Except ε γ) (h : α → β) (l : List α) :
    mapME f (l.map h) = mapME (fun a => f (h a)) l := by
  induction l with
  | nil => rfl
  | cons x xs ih => rw [List.map_cons, mapME, mapME, ih]

theorem mapME_ok_map {α β ε : Type} (f : α → Except ε β) (g : α → β) :
    ∀ l : List α, (∀ x ∈ l, f x = .ok (g x)) → mapME f l = .ok (l.map g) := by
  intro l
  induction l with
  | nil => intro _; rfl
  | cons x xs ih =>
    intro h
    rw [mapME, h x (List.mem_cons_self _ _),
      ih fun y hy => h y (List.mem_cons_of_mem _ hy)]
    rfl

theorem parseStmt_canonStmt (m : Module) (hWF : WFmod m = true) :
    parseStmt (canonStmt m) = .ok (.modS m) := by
  have hm2 : okStr m.name = true ∧ m.info.all WFinfo = true := by simpa [WFmod] using hWF
  have h1 : canonStmt m =
      'm' :: 'o' :: 'd' :: (' ' :: '\'' :: (m.name ++ '\'' :: canonItems m.info)) := by
    have h : strL "mod '" = 'm' :: 'o' :: 'd' :: ' ' :: '\'' :: ([] : Str) := by decide
    have h2 : strL "'" = '\'' :: ([] : Str) := by decide
    rw [canonStmt, modStart, h, h2]
    simp
  have hskip : skipWs (' ' :: '\'' :: (m.name ++ '\'' :: canonItems m.info)) =
      '\'' :: (m.name ++ '\'' :: canonItems m.info) := by
    rw [skipWs, List.dropWhile_cons_of_pos (by decide),
      List.dropWhile_cons_of_neg (by decide)]
  have hpq : parseQuoted ('\'' :: (m.name ++ '\'' :: canonItems m.info)) =
      some (m.name, canonItems m.info) :=
    parseQuoted_canon fun a ha => (okStr_mem hm2.1 ha).1
  rw [h1]
  simp only [parseStmt, hskip, hpq]
  cases hinfo : m.info with
  | nil =>
    simp only [canonItems, skipWs_nil]
    rw [if_pos trivial, ← hinfo]
  | cons i rest =>
    have hall : (i :: rest).all WFinfo = true := by rw [← hinfo]; exact hm2.2
    have hskip2 : skipWs (canonItems (i :: rest)) = canonItems (i :: rest) := by
      rw [canonItems, skipWs, List.dropWhile_cons_of_neg (by decide)]
    have hne : canonItems (i :: rest) ≠ [] := by
      rw [canonItems]
      simp
    have hsplit := splitTC_canonItems (i :: rest) hall
    have hmapme := mapME_ok_map (fun j => parseItem1 m.name (' ' :: itemCore j)) id (i :: rest)
      fun x hx => by
        show parseItem1 m.name (' ' :: itemCore x) = Except.ok x
        exact parseItem1_canon m.name x (List.all_eq_true.mp hall x hx)
    rw [List.map_id] at hmapme
    rw [hskip2, if_neg hne, hsplit]
    simp only [mapME_map, hmapme, Except.map]
    rw [← hinfo]

theorem lastForge_mods (ms : List Module) : lastForge (ms.map .modS) = none := by
  induction ms with
  | nil => rfl
  | cons m ms ih =>
    rw [List.map_cons, lastForge, ih]

theorem modsOf_mods (ms : List Module) : modsOf (ms.map .modS) = ms := by
  induction ms with
  | nil => rfl
  | cons m ms ih =>
    rw [List.map_cons, modsOf, ih]

theorem buildDoc_canon (u : Str) (ms : List Module) :
    buildDoc (.forgeS u :: ms.map .modS) = .ok ⟨u, ms⟩ := by
  rw [buildDoc, lastForge, lastForge_mods]
  simp [modsOf, modsOf_mods]

theorem parse_render (p : Puppetfile) (hWF : WF p = true) :
    parseE (showPuppetfile p) = .ok p := by
  have hWF2 : okStr p.forge = true ∧ p.modules.all WFmod = true := by simpa [WF] using hWF
  have hmods : mapME parseStmt (p.modules.map canonStmt) = .ok (p.modules.map .modS) := by
    rw [mapME_map]
    exact mapME_ok_map _ Stmt.modS p.modules fun m hm =>
      parseStmt_canonStmt m (List.all_eq_true.mp hWF2.2 m hm)
  rw [parseE, logicalStmts_render p hWF, mapME, parseStmt_forgeLine p hWF2.1, hmods]
  simp [Except.map, buildDoc_canon]

/-!
Soundness: every document a successful parse produces is well-formed.
-/

theorem okStr_intro {s : Str} (h : ∀ a ∈ s, a ≠ '\'' ∧ a ≠ '\n') : okStr s = true := by
  rw [okStr, List.all_eq_true]
  intro a ha
  exact decide_eq_true (h a ha)

theorem parseQuoted_ok {s c r : Str} (h : parseQuoted s = some (c, r)) :
    (∀ a ∈ c, a ≠ '\'') ∧ (∀ a ∈ c, a ∈ s) ∧ ∀ a ∈ r, a ∈ s := by
  unfold parseQuoted at h
  split at h
  next tl =>
    split at h
    next q rest hq =>
      injection h with h2
      injection h2 with hc hr
      subst hc
      subst hr
      refine ⟨?_, ?_, ?_⟩
      · intro a ha
        have := List.mem_takeWhile_imp ha
        simpa using this
      · intro a ha
        exact List.mem_cons_of_mem _ (takeWhile_subset _ tl ha)
      · intro a ha
        have : a ∈ tl.dropWhile fun c => ¬ c = '\'' := by
          rw [hq]
          exact List.mem_cons_of_mem _ ha
        exact List.mem_cons_of_mem _ (dropWhile_subset _ tl this)
    next => cases h
  next => cases h

theorem splitTC_ne_nil (s : Str) : ∀ inq, splitTC inq s ≠ [] := by
  induction s with
  | nil =>
    intro inq
    simp [splitTC]
  | cons x xs ih =>
    intro inq
    rw [splitTC]
    by_cases hc : inq = false ∧ x = ','
    · rw [if_pos hc]
      simp
    · rw [if_neg hc]
      cases hsp : splitTC (if x = '\'' then !inq else inq) xs with
      | nil => simp
      | cons h t => simp

theorem splitTC_parts (s : Str) : ∀ inq, ∀ p ∈ splitTC inq s, ∀ a ∈ p, a ∈ s := by
  induction s with
  | nil =>
    intro inq p hp a ha
    simp only [splitTC, List.mem_singleton] at hp
    subst hp
    cases ha
  | cons x xs ih =>
    intro inq p hp a ha
    rw [splitTC] at hp
    by_cases hc : inq = false ∧ x = ','
    · rw [if_pos hc] at hp
      rcases List.mem_cons.mp hp with rfl | hp2
      · cases ha
      · exact List.mem_cons_of_mem _ (ih _ p hp2 a ha)
    · rw [if_neg hc] at hp
      cases hsp : splitTC (if x = '\'' then !inq else inq) xs with
      | nil => exact absurd hsp (splitTC_ne_nil _ _)
      | cons h t =>
        rw [hsp] at hp
        rcases List.mem_cons.mp hp with rfl | hp2
        · rcases List.mem_cons.mp ha with rfl | ha2
          · exact List.mem_cons_self _ _
          · exact List.mem_cons_of_mem _
              (ih _ h (by rw [hsp]; exact List.mem_cons_self _ _) a ha2)
        · exact List.mem_cons_of_mem _
            (ih _ p (by rw [hsp]; exact List.mem_cons_of_mem _ hp2) a ha)

theorem parseItem1_ok {name s0 : Str} {i : ModuleInfo}
    (h : parseItem1 name s0 = .ok i) (hnl : '\n' ∉ s0) : WFinfo i = true := by
  have hsub : ∀ a ∈ skipWs s0, a ∈ s0 := fun a ha => dropWhile_subset _ _ ha
  unfold parseItem1 at h
  split at h
  next tl heq =>
    split at h
    next c r hpq =>
      split at h
      next hsk =>
        split at h
        next hvv =>
          injection h with h2
          subst h2
          simpa [WFinfo] using hvv
        next => cases h
      next => cases h
    next => cases h
  next tl heq =>
    split at h
    next hk => cases h
    next hk =>
      split at h
      next r2 heq2 =>
        split at h
        next v r3 hpq =>
          split at h
          next hr3 =>
            injection h with h2
            subst h2
            have htl : ∀ a ∈ tl, a ∈ s0 := fun a ha =>
              hsub a (by rw [heq]; exact List.mem_cons_of_mem _ ha)
            have hr2 : ∀ a ∈ r2, a ∈ s0 := by
              intro a ha
              have h1 : a ∈ skipWs (tl.dropWhile isSymChar) := by
                rw [heq2]
                exact List.mem_cons_of_mem _ (List.mem_cons_of_mem _ ha)
              exact htl a (dropWhile_subset _ _ (dropWhile_subset _ _ h1))
            have hpqf := parseQuoted_ok hpq
            have hv : okStr v = true := by
              refine okStr_intro fun a ha => ⟨hpqf.1 a ha, ?_⟩
              intro hEq
              subst hEq
              exact hnl (hr2 _ (dropWhile_subset _ _ (hpqf.2.1 _ ha)))
            have hkey : okKey (tl.takeWhile isSymChar) = true := by
              have hall : ∀ a ∈ tl.takeWhile isSymChar, isSymChar a = true := by
                intro a ha
                simpa using List.mem_takeWhile_imp ha
              simp [okKey, hk, List.all_eq_true, hall]
            simp [WFinfo, hkey, hv]
          next => cases h
        next => cases h
      next => cases h
  next => cases h

theorem mapME_mem {α β ε : Type} (f : α → Except ε β) :
    ∀ {l : List α} {ys : List β}, mapME f l = .ok ys → ∀ y ∈ ys, ∃ x ∈ l, f x = .ok y := by
  intro l
  induction l with
  | nil =>
    intro ys h y hy
    injection h with h2
    subst h2
    cases hy
  | cons x xs ih =>
    intro ys h y hy
    rw [mapME] at h
    cases hfx : f x with
    | error e =>
      rw [hfx] at h
      cases h
    | ok b =>
      rw [hfx] at h
      cases hm : mapME f xs with
      | error e =>
        rw [hm] at h
        cases h
      | ok bs =>
        rw [hm] at h
        simp only [Except.map] at h
        injection h with h2
        subst h2
        rcases List.mem_cons.mp hy with rfl | hy2
        · exact ⟨x, List.mem_cons_self _ _, hfx⟩
        · obtain ⟨x', hx', hfx'⟩ := ih hm y hy2
          exact ⟨x', List.mem_cons_of_mem _ hx', hfx'⟩

theorem WFmod_intro {n : Str} {is : List ModuleInfo} (hn : okStr n = true)
    (his : ∀ i ∈ is, WFinfo i = true) : WFmod ⟨n, is⟩ = true := by
  simp [WFmod, hn, List.all_eq_true]
  exact his

theorem parseStmt_ok_wf {s : Str} {st : Stmt} (h : parseStmt s = .ok st)
    (hnl : '\n' ∉ s) :
    (∀ u, st = .forgeS u → okStr u = true) ∧ ∀ m, st = .modS m → WFmod m = true := by
  unfold parseStmt at h
  split at h
  next rest =>
    split at h
    next u r hpq =>
      split at h
      next hsk =>
        injection h with h2
        subst h2
        have hpqf := parseQuoted_ok hpq
        refine ⟨fun u' hu => ?_, fun m hm => Stmt.noConfusion hm⟩
        injection hu with hu2
        subst hu2
        refine okStr_intro fun a ha => ⟨hpqf.1 a ha, ?_⟩
        intro hEq
        subst hEq
        refine hnl ?_
        have h3 := dropWhile_subset isWsChar rest (hpqf.2.1 _ ha)
        simp [h3]
      next => cases h
    next => cases h
  next rest =>
    split at h
    next n r hpq =>
      have hpqf := parseQuoted_ok hpq
      have hnlrest : '\n' ∉ rest := fun hmm => hnl (by simp [hmm])
      have hn : okStr n = true := by
        refine okStr_intro fun a ha => ⟨hpqf.1 a ha, ?_⟩
        intro hEq
        subst hEq
        exact hnlrest (dropWhile_subset isWsChar rest (hpqf.2.1 _ ha))
      have hrsub : ∀ a ∈ r, a ∈ rest := fun a ha =>
        dropWhile_subset isWsChar rest (hpqf.2.2 _ ha)
      split at h
      next hsk =>
        injection h with h2
        subst h2
        refine ⟨fun u' hu => Stmt.noConfusion hu, fun m hm => ?_⟩
        injection hm with hm2
        subst hm2
        exact WFmod_intro hn fun i hi => absurd hi (List.not_mem_nil i)
      next hsk =>
        split at h
        next itemStrs heq3 =>
          cases hmm : mapME (parseItem1 n) itemStrs with
          | error e =>
            rw [hmm] at h
            cases h
          | ok is =>
            rw [hmm] at h
            simp only [Except.map] at h
            injection h with h2
            subst h2
            refine ⟨fun u' hu => Stmt.noConfusion hu, fun m hm => ?_⟩
            injection hm with hm2
            subst hm2
            refine WFmod_intro hn fun i hi => ?_
            obtain ⟨itemStr, hit, hpi⟩ := mapME_mem (parseItem1 n) hmm i hi
            refine parseItem1_ok hpi ?_
            intro hmem
            have hmem1 : itemStr ∈ splitTC false (skipWs r) := by
              rw [heq3]
              exact List.mem_cons_of_mem _ hit
            have hmem2 := splitTC_parts (skipWs r) false itemStr hmem1 _ hmem
            exact hnlrest (hrsub _ (dropWhile_subset _ _ hmem2))
        next => cases h
    next => cases h
  next => cases h

theorem lastForge_mem : ∀ {stmts : List Stmt} {u : Str}, lastForge stmts = some u →
    Stmt.forgeS u ∈ stmts := by
  intro stmts
  induction stmts with
  | nil =>
    intro u h
    cases h
  | cons s rest ih =>
    intro u h
    cases s with
    | forgeS u' =>
      rw [lastForge] at h
      cases hl : lastForge rest with
      | some v =>
        rw [hl] at h
        injection h with h2
        subst h2
        exact List.mem_cons_of_mem _ (ih hl)
      | none =>
        rw [hl] at h
        injection h with h2
        subst h2
        exact List.mem_cons_self _ _
    | modS m =>
      rw [lastForge] at h
      exact List.mem_cons_of_mem _ (ih h)

theorem modsOf_mem : ∀ {stmts : List Stmt} {m : Module}, m ∈ modsOf stmts →
    Stmt.modS m ∈ stmts := by
  intro stmts
  induction stmts with
  | nil =>
    intro m h
    cases h
  | cons s rest ih =>
    intro m h
    cases s with
    | forgeS u =>
      rw [modsOf] at h
      exact List.mem_cons_of_mem _ (ih h)
    | modS m' =>
      rw [modsOf] at h
      rcases List.mem_cons.mp h with rfl | h2
      · exact List.mem_cons_self _ _
      · exact List.mem_cons_of_mem _ (ih h2)

theorem parse_wf {text : Str} {doc : Puppetfile} (h : parseE text = .ok doc) :
    WF doc = true := by
  rw [parseE] at h
  split at h
  next e hm => cases h
  next stmts hm =>
    unfold buildDoc at h
    split at h
    next hl => cases h
    next u hl =>
      injection h with h2
      subst h2
      have hwf : ∀ st ∈ stmts, (∀ u', st = .forgeS u' → okStr u' = true) ∧
          ∀ m, st = .modS m → WFmod m = true := by
        intro st hst
        obtain ⟨s, hs, hps⟩ := mapME_mem parseStmt hm st hst
        exact parseStmt_ok_wf hps (logicalStmts_nl_free text s hs)
      have hforge : okStr u = true := (hwf _ (lastForge_mem hl)).1 u rfl
      have hmods : ∀ m ∈ modsOf stmts, WFmod m = true := fun m hm2 =>
        (hwf _ (modsOf_mem hm2)).2 m rfl
      simp [WF, hforge, List.all_eq_true]
      exact hmods

/-- C1: for every document produced by a successful parse, parsing the
canonical rendering (the `fmt::Show` implementation) succeeds and yields
an equal document. -/
theorem parse_render_roundtrip (text : Str) (doc : Puppetfile)
    (h : Puppetfile.parse text = .ok doc) :
    Puppetfile.parse (showPuppetfile doc) = .ok doc := by
  have he : parseE text = .ok doc := by
    rw [Puppetfile.parse] at h
    cases hp : parseE text with
    | ok d =>
      rw [hp] at h
      injection h with h2
      subst h2
      rfl
    | error e =>
      rw [hp] at h
      cases h
  have hWF := parse_wf he
  rw [Puppetfile.parse, parse_render doc hWF]

set_option maxRecDepth 8192 in
/-- C1 (witness): the round trip evaluated on the spec's end-to-end
example manifest. -/
theorem parse_render_roundtrip_witness :
    Puppetfile.parse (showPuppetfile pfExample) = .ok pfExample :=
  parse_render_roundtrip exampleText pfExample (by decide)

end Puppet
